import Mathlib

/-!
Verification development for the sftp-deploy tool (src/deploy.mjs).

The JavaScript source is shallowly embedded: pure computations become Lean
functions, the effectful control flow of `main`/`upload` becomes an explicit
trace-producing function parametrised by oracles (user answers, per-file
transfer outcomes, remote stat results), and the remote filesystem touched by
`cleanRemoteDirectory` / `mkdirSftp` / `fastPut` becomes an explicit tree
state.  File contents are abstracted by a hash oracle `hash : String → String`
standing for `computeFileHash` applied to a local path, since
`computeFileHash` only ever feeds the equality comparisons in
`filterChangedFiles`.
-/

set_option autoImplicit false

namespace SftpDeploy

/-- A collected file, as produced by `collectFiles` in deploy.mjs: the JS
object `\x7b local, relative \x7d`.  `local` is a Lean keyword, so the field is
named `localPath`. -/
structure FileEntry where
  localPath : String
  relative : String
deriving DecidableEq, Repr

/-- Result record of `filterChangedFiles` (deploy.mjs:105-122): the JS object
`\x7b changed, unchanged, newHashes \x7d`.  The JS object `newHashes` is modelled
as a partial map `String → Option String`; `none` plays the role of a missing
key (JS `undefined`). -/
structure FilterResult where
  changed : List FileEntry
  unchanged : Nat
  newHashes : String → Option String

/-- One iteration of the `for (const file of files)` loop of
`filterChangedFiles` (deploy.mjs:110-119): compute the hash, record it in
`newHashes` (later files overwrite earlier ones with the same relative path,
as JS object assignment does), and classify the file.  The JS test
`cache[file.relative] !== hash` is true exactly when the key is absent
(`undefined !== hash`, since a hash is a string) or bound to a different
string, i.e. when `cache file.relative ≠ some h`. -/
def filterStep (hash : String → String) (cache : String → Option String)
    (acc : FilterResult) (f : FileEntry) : FilterResult :=
  let h := hash f.localPath
  let nh : String → Option String :=
    fun r => if r = f.relative then some h else acc.newHashes r
  if cache f.relative = some h then
    { changed := acc.changed, unchanged := acc.unchanged + 1, newHashes := nh }
  else
    { changed := acc.changed ++ [f], unchanged := acc.unchanged, newHashes := nh }

/-- The loop of `filterChangedFiles`, with its accumulated state. -/
def filterLoop (hash : String → String) (cache : String → Option String) :
    List FileEntry → FilterResult → FilterResult
  | [], acc => acc
  | f :: rest, acc => filterLoop hash cache rest (filterStep hash cache acc f)

/-- `filterChangedFiles(files, cache)` (deploy.mjs:105-122).  The initial
accumulator mirrors `changed = []`, `unchanged = 0`, `newHashes = \x7b\x7d`. -/
def filterChangedFiles (hash : String → String) (files : List FileEntry)
    (cache : String → Option String) : FilterResult :=
  filterLoop hash cache files { changed := [], unchanged := 0, newHashes := fun _ => none }

/-- The per-file "changed" test of `filterChangedFiles`, as a Bool. -/
def isChanged (hash : String → String) (cache : String → Option String)
    (f : FileEntry) : Bool :=
  decide (cache f.relative ≠ some (hash f.localPath))

theorem filterLoop_changed (hash : String → String) (cache : String → Option String) :
    ∀ (files : List FileEntry) (acc : FilterResult),
      (filterLoop hash cache files acc).changed
        = acc.changed ++ files.filter (isChanged hash cache) := by
  intro files
  induction files with
  | nil => intro acc; simp [filterLoop]
  | cons f rest ih =>
    intro acc
    by_cases h : cache f.relative = some (hash f.localPath)
    · simp [filterLoop, filterStep, ih, isChanged, h, List.filter_cons]
    · simp [filterLoop, filterStep, ih, isChanged, h, List.filter_cons]

theorem filterLoop_unchanged (hash : String → String) (cache : String → Option String) :
    ∀ (files : List FileEntry) (acc : FilterResult),
      (filterLoop hash cache files acc).unchanged
        = acc.unchanged + files.countP (fun f => !isChanged hash cache f) := by
  intro files
  induction files with
  | nil => intro acc; simp [filterLoop]
  | cons f rest ih =>
    intro acc
    by_cases h : cache f.relative = some (hash f.localPath)
    · simp [filterLoop, filterStep, ih, isChanged, h, List.countP_cons]
      omega
    · simp [filterLoop, filterStep, ih, isChanged, h, List.countP_cons]

theorem filterLoop_newHashes_not_mem (hash : String → String)
    (cache : String → Option String) :
    ∀ (files : List FileEntry) (acc : FilterResult) (r : String),
      (∀ f ∈ files, f.relative ≠ r) →
      (filterLoop hash cache files acc).newHashes r = acc.newHashes r := by
  intro files
  induction files with
  | nil => intro acc r _; simp [filterLoop]
  | cons f rest ih =>
    intro acc r hr
    have hf : f.relative ≠ r := hr f (by simp)
    have hrest : ∀ g ∈ rest, g.relative ≠ r := fun g hg => hr g (by simp [hg])
    have hne : ¬ r = f.relative := fun h => hf h.symm
    by_cases h : cache f.relative = some (hash f.localPath)
    · rw [filterLoop, ih _ r hrest]
      simp [filterStep, h, hne]
    · rw [filterLoop, ih _ r hrest]
      simp [filterStep, h, hne]

theorem filterLoop_newHashes_mem (hash : String → String)
    (cache : String → Option String) :
    ∀ (files : List FileEntry) (acc : FilterResult) (f : FileEntry),
      (files.map (fun g => g.relative)).Nodup → f ∈ files →
      (filterLoop hash cache files acc).newHashes f.relative
        = some (hash f.localPath) := by
  intro files
  induction files with
  | nil => intro acc f _ hf; cases hf
  | cons g rest ih =>
    intro acc f hnd hf
    have hnd' : (rest.map (fun g => g.relative)).Nodup := (List.nodup_cons.mp hnd).2
    rcases List.mem_cons.mp hf with hfg | hfr
    · subst hfg
      have hnotin : ∀ g2 ∈ rest, g2.relative ≠ f.relative := by
        intro g2 hg2 heq
        exact (List.nodup_cons.mp hnd).1 (List.mem_map.mpr ⟨g2, hg2, heq⟩)
      rw [filterLoop, filterLoop_newHashes_not_mem hash cache rest _ _ hnotin]
      by_cases h : cache f.relative = some (hash f.localPath) <;>
        simp [filterStep, h]
    · rw [filterLoop]
      exact ih _ f hnd' hfr

/-- Changed files are exactly the entries failing the cache-hash comparison. -/
theorem filterChangedFiles_changed (hash : String → String)
    (cache : String → Option String) (files : List FileEntry) :
    (filterChangedFiles hash files cache).changed
      = files.filter (isChanged hash cache) := by
  rw [filterChangedFiles, filterLoop_changed]
  rfl

theorem filterChangedFiles_unchanged (hash : String → String)
    (cache : String → Option String) (files : List FileEntry) :
    (filterChangedFiles hash files cache).unchanged
      = files.countP (fun f => !isChanged hash cache f) := by
  rw [filterChangedFiles, filterLoop_unchanged]
  simp

theorem filterChangedFiles_newHashes_mem (hash : String → String)
    (cache : String → Option String) (files : List FileEntry) (f : FileEntry)
    (hnd : (files.map (fun g => g.relative)).Nodup) (hf : f ∈ files) :
    (filterChangedFiles hash files cache).newHashes f.relative
      = some (hash f.localPath) :=
  filterLoop_newHashes_mem hash cache files _ f hnd hf

theorem filterChangedFiles_newHashes_not_mem (hash : String → String)
    (cache : String → Option String) (files : List FileEntry) (r : String)
    (hr : ∀ f ∈ files, f.relative ≠ r) :
    (filterChangedFiles hash files cache).newHashes r = none :=
  filterLoop_newHashes_not_mem hash cache files _ r hr

/-- Re-running change detection against the freshly computed hashes of a
previous run over the same files classifies nothing as changed. -/
theorem filterChangedFiles_idempotent (hash : String → String)
    (cache : String → Option String) (files : List FileEntry)
    (hnd : (files.map (fun g => g.relative)).Nodup) :
    (filterChangedFiles hash files
        (filterChangedFiles hash files cache).newHashes).changed = [] := by
  rw [filterChangedFiles_changed]
  apply List.filter_eq_nil_iff.mpr
  intro f hf
  simp only [isChanged, decide_eq_true_eq, Decidable.not_not]
  exact filterChangedFiles_newHashes_mem hash cache files f hnd hf

/-!
Filesystem trees.  One mutual inductive serves both the local directory tree
walked by `collectFiles` and the remote directory tree manipulated through the
sftp session (`cleanRemoteDirectory`, `mkdirSftp`, `fastPut`).  A directory's
entries are kept in listing order; `fileNode` carries no content because file
bytes are abstracted by the hash oracle.
-/

mutual
inductive FsTree where
  | fileNode : FsTree
  | dirNode : FsEntries → FsTree
deriving Repr
inductive FsEntries where
  | nil : FsEntries
  | cons : String → FsTree → FsEntries → FsEntries
deriving Repr
end

/-- `String.prototype.startsWith`, computed on the character list. -/
def strStartsWith (s pre : String) : Bool := List.isPrefixOf pre.data s.data

/-- `String.prototype.endsWith`, computed on the character list. -/
def strEndsWith (s post : String) : Bool :=
  List.isPrefixOf post.data.reverse s.data.reverse

/-- `String.prototype.slice(n)` for a non-negative index, on the character
list. -/
def strDrop (s : String) (n : Nat) : String := String.mk (s.data.drop n)

/-- JS `String.prototype.includes`: substring containment (true for the empty
needle). -/
def strIncludes (s pat : String) : Bool :=
  (List.range (s.length + 1)).any (fun i => List.isPrefixOf pat.data (s.data.drop i))

/-- Split a character list at every occurrence of the separator character. -/
def splitCharsOn (c : Char) : List Char → List (List Char)
  | [] => [[]]
  | d :: rest =>
    match splitCharsOn c rest with
    | [] => if d = c then [[], []] else [[d]]
    | h :: t => if d = c then [] :: h :: t else (d :: h) :: t

/-- `s.split('/')` / Lean's `String.splitOn "/"`: the maximal chunks between
slashes, kept as strings. -/
def splitOnSlash (s : String) : List String :=
  (splitCharsOn '/' s.data).map String.mk

/-- The exclusion test of `collectFiles` (deploy.mjs:220-223) for a single
pattern: a pattern starting with `*.` matches by file-name suffix
(`entry.name.endsWith(pattern.slice(1))`), any other pattern matches by exact
file name or by substring of the relative path. -/
def excludedBy (pat name relPath : String) : Bool :=
  if strStartsWith pat "*." then strEndsWith name (strDrop pat 1)
  else name == pat || strIncludes relPath pat

/-- The `exclude.some(...)` test of deploy.mjs:220-223. -/
def excludedByAny (exclude : List String) (name relPath : String) : Bool :=
  exclude.any (fun pat => excludedBy pat name relPath)

/-- The recursion of `collectFiles` (deploy.mjs:212-238) over a directory's
entries, carried out on relative-path segments: `rel` is the segment list of
the enclosing directory relative to `baseDir`, and the result lists the
segment lists of the collected files, in enumeration order.  An entry whose
name or relative path is matched by a rule is skipped (`continue`), and a
matched directory is not recursed into. -/
def collectSegs (exclude : List String) : List String → FsEntries → List (List String)
  | _, FsEntries.nil => []
  | rel, FsEntries.cons name child rest =>
    let segs := rel ++ [name]
    if excludedByAny exclude name (String.intercalate "/" segs) then
      collectSegs exclude rel rest
    else
      match child with
      | FsTree.fileNode => segs :: collectSegs exclude rel rest
      | FsTree.dirNode cs => collectSegs exclude segs cs ++ collectSegs exclude rel rest

/-- `collectFiles(dir, baseDir, exclude)` called at a root (deploy.mjs:212-238,
with `baseDir = dir` as in `main`): the root is `none` when the directory does
not exist (`fs.existsSync` false, empty result).  `local` is the
forward-slash join of the root path and the relative path, and `relative` is
the forward-slash-normalized relative path, both as the source computes them
on a POSIX host. -/
def collectFiles (exclude : List String) (rootPath : String) :
    Option FsEntries → List FileEntry
  | none => []
  | some es =>
    (collectSegs exclude [] es).map
      (fun segs =>
        { localPath := rootPath ++ "/" ++ String.intercalate "/" segs
          relative := String.intercalate "/" segs })

/-- No prefix of the segment path (the file itself, nor any ancestor
directory) is matched by an exclusion rule, each prefix being tested exactly
as `collectFiles` tests it: by its final name component and its
forward-slash-joined relative path. -/
def prefixClean (exclude : List String) (segs : List String) : Bool :=
  (List.range segs.length).all
    (fun j =>
      !excludedByAny exclude ((segs.take (j + 1)).getLastD "")
        (String.intercalate "/" (segs.take (j + 1))))

theorem list_all_congr {α : Type} (l : List α) (f g : α → Bool)
    (h : ∀ a ∈ l, f a = g a) : l.all f = l.all g := by
  induction l with
  | nil => rfl
  | cons a l ih =>
    simp only [List.all_cons]
    rw [h a (by simp), ih (fun b hb => h b (by simp [hb]))]

theorem prefixClean_append_singleton (exclude : List String) (rel : List String)
    (name : String) :
    prefixClean exclude (rel ++ [name])
      = (prefixClean exclude rel
          && !excludedByAny exclude name (String.intercalate "/" (rel ++ [name]))) := by
  unfold prefixClean
  rw [List.length_append, List.length_singleton, List.range_succ, List.all_append]
  congr 1
  · apply list_all_congr
    intro j hj
    have hjlt : j < rel.length := List.mem_range.mp hj
    rw [List.take_append_of_le_length (by omega)]
  · have htake : (rel ++ [name]).take (rel.length + 1) = rel ++ [name] := by
      apply List.take_of_length_le
      simp
    simp [htake]

theorem collectSegs_nil_eq (exclude : List String) (rel : List String) :
    collectSegs exclude rel FsEntries.nil = [] := by
  rw [collectSegs.eq_def]

theorem collectSegs_cons_eq (exclude : List String) (rel : List String)
    (name : String) (child : FsTree) (rest : FsEntries) :
    collectSegs exclude rel (FsEntries.cons name child rest)
      = if excludedByAny exclude name (String.intercalate "/" (rel ++ [name])) then
          collectSegs exclude rel rest
        else
          match child with
          | FsTree.fileNode => (rel ++ [name]) :: collectSegs exclude rel rest
          | FsTree.dirNode cs =>
            collectSegs exclude (rel ++ [name]) cs ++ collectSegs exclude rel rest := by
  rw [collectSegs.eq_def]

theorem collectSegs_prefixClean (exclude : List String) :
    ∀ (rel : List String) (es : FsEntries),
      prefixClean exclude rel = true →
      ∀ segs ∈ collectSegs exclude rel es, prefixClean exclude segs = true := by
  intro rel es
  induction rel, es using collectSegs.induct exclude with
  | case1 rel => intro _ s hmem; rw [collectSegs_nil_eq] at hmem; cases hmem
  | case2 rel name child rest segs hex ih =>
    intro hclean s hs
    rw [collectSegs_cons_eq, if_pos hex] at hs
    exact ih hclean s hs
  | case3 rel name rest segs hex ih =>
    intro hclean s hs
    rw [collectSegs_cons_eq, if_neg hex] at hs
    have hex' : excludedByAny exclude name (String.intercalate "/" (rel ++ [name])) = false :=
      Bool.eq_false_iff.mpr hex
    rcases List.mem_cons.mp hs with h | h
    · subst h
      rw [prefixClean_append_singleton, hclean, hex']
      rfl
    · exact ih hclean s h
  | case4 rel name rest segs hex cs ihIn ihRest =>
    intro hclean s hs
    rw [collectSegs_cons_eq, if_neg hex] at hs
    have hex' : excludedByAny exclude name (String.intercalate "/" (rel ++ [name])) = false :=
      Bool.eq_false_iff.mpr hex
    rcases List.mem_append.mp hs with h | h
    · have hclean' : prefixClean exclude (rel ++ [name]) = true := by
        rw [prefixClean_append_singleton, hclean, hex']
        rfl
      exact ihIn hclean' s h
    · exact ihRest hclean s h

/-!
Remote filesystem state.  The sftp server reached through the single session
is modelled as an `FsTree` rooted at the configured remote path; paths are
segment lists relative to that root.  The operation semantics below follow the
RemoteSession contract of the spec (§4.4): `mkdir` fails (silently ignored by
`mkdirSftp`) when the target exists or its parent is missing or is a file;
`fastPut` creates or overwrites a regular file and fails when the parent chain
is broken or the target is a directory; a failed `fastPut` leaves no object at
the target.
-/

/-- First entry with the given name in a directory listing. -/
def getChild : FsEntries → String → Option FsTree
  | FsEntries.nil, _ => none
  | FsEntries.cons m t rest, n => if m = n then some t else getChild rest n

/-- Replace the first entry with the given name, or append a new entry. -/
def setChild : FsEntries → String → FsTree → FsEntries
  | FsEntries.nil, n, t => FsEntries.cons n t FsEntries.nil
  | FsEntries.cons m t0 rest, n, t =>
    if m = n then FsEntries.cons m t rest
    else FsEntries.cons m t0 (setChild rest n t)

/-- Effect of `mkdirSftp(sftp, dir)` (deploy.mjs:243-256) on the tree below
the position where `dir` is interpreted: each path component is `mkdir`ed in
order, every error being swallowed by the empty callback.  Descending below a
regular file leaves the tree unchanged (each deeper `mkdir` fails). -/
def ensureDirState : FsTree → List String → FsTree
  | t, [] => t
  | FsTree.fileNode, _ :: _ => FsTree.fileNode
  | FsTree.dirNode es, n :: rest =>
    match getChild es n with
    | some c => FsTree.dirNode (setChild es n (ensureDirState c rest))
    | none => FsTree.dirNode (setChild es n (ensureDirState (FsTree.dirNode FsEntries.nil) rest))

/-- Effect of a successful `sftp.fastPut` at a relative path: `none` models a
transfer error forced by the remote state (missing or non-directory parent, or
a directory at the target). -/
def putFile : FsTree → List String → Option FsTree
  | _, [] => none
  | FsTree.fileNode, _ :: _ => none
  | FsTree.dirNode es, [n] =>
    match getChild es n with
    | some (FsTree.dirNode _) => none
    | _ => some (FsTree.dirNode (setChild es n FsTree.fileNode))
  | FsTree.dirNode es, n :: rest@(_ :: _) =>
    match getChild es n with
    | some c => (putFile c rest).map (fun c2 => FsTree.dirNode (setChild es n c2))
    | none => none

/-- There is a regular file at the given relative path. -/
def isFileAt : FsTree → List String → Bool
  | FsTree.fileNode, [] => true
  | FsTree.dirNode _, [] => false
  | FsTree.fileNode, _ :: _ => false
  | FsTree.dirNode es, n :: rest =>
    match getChild es n with
    | some c => isFileAt c rest
    | none => false

/-- There is a directory at the given relative path. -/
def isDirAt : FsTree → List String → Bool
  | FsTree.fileNode, [] => false
  | FsTree.dirNode _, [] => true
  | FsTree.fileNode, _ :: _ => false
  | FsTree.dirNode es, n :: rest =>
    match getChild es n with
    | some c => isDirAt c rest
    | none => false

/-- The `for (const item of list)` deletion loop of `cleanRemoteDirectory`
(deploy.mjs:300-309) applied to a listed directory's entries, returning the
entries that remain.  A file is `unlink`ed; a directory is cleaned recursively
and then `rmdir`ed — `rmdir` succeeds exactly when the recursive clean left it
empty, and its error is otherwise swallowed by the empty callback. -/
def cleanEntries : FsEntries → FsEntries
  | FsEntries.nil => FsEntries.nil
  | FsEntries.cons _ FsTree.fileNode rest => cleanEntries rest
  | FsEntries.cons n (FsTree.dirNode cs) rest =>
    match cleanEntries cs with
    | FsEntries.nil => cleanEntries rest
    | cs2 => FsEntries.cons n (FsTree.dirNode cs2) (cleanEntries rest)

/-- `cleanRemoteDirectory(sftp, remotePath)` (deploy.mjs:291-313) acting on the
object found at `remotePath` (`none` = no such path).  The outer `Option` is
the promise outcome: `none` = rejected.  `readdir` on a missing path fails
with status 2 (`err.code === 2`), which resolves immediately with the state
untouched; `readdir` on a regular file fails with a different code and
rejects. -/
def cleanRemoteDirectory : Option FsTree → Option (Option FsTree)
  | none => some none
  | some FsTree.fileNode => none
  | some (FsTree.dirNode es) => some (some (FsTree.dirNode (cleanEntries es)))

theorem cleanEntries_eq_nil : ∀ es : FsEntries, cleanEntries es = FsEntries.nil := by
  intro es
  induction es using cleanEntries.induct with
  | case1 => rfl
  | case2 n rest ih => rw [cleanEntries]; exact ih
  | case3 n cs rest hnil ihIn ihRest =>
    rw [cleanEntries, hnil]
    exact ihRest
  | case4 n cs rest hne ihIn ihRest =>
    exact absurd ihIn hne

theorem getChild_setChild_same : ∀ (es : FsEntries) (n : String) (t : FsTree),
    getChild (setChild es n t) n = some t := by
  intro es n t
  induction es, n, t using setChild.induct with
  | case1 n t => simp [setChild, getChild]
  | case2 t0 rest n t => simp [setChild, getChild]
  | case3 m t0 rest n t hne ih => simp [setChild, getChild, hne, ih]

theorem getChild_setChild_ne : ∀ (es : FsEntries) (n : String) (t : FsTree) (m : String),
    m ≠ n → getChild (setChild es n t) m = getChild es m := by
  intro es n t
  induction es, n, t using setChild.induct with
  | case1 n t =>
    intro m hne
    have hnm : ¬ n = m := fun h => hne h.symm
    simp [setChild, getChild, hnm]
  | case2 t0 rest n t =>
    intro m hne
    have hnm : ¬ n = m := fun h => hne h.symm
    simp [setChild, getChild, hnm]
  | case3 k t0 rest n t hkn ih =>
    intro m hne
    by_cases hkm : k = m
    · subst hkm
      simp [setChild, getChild, hne]
    · simp [setChild, getChild, hkn, hkm, ih m hne]

theorem setChild_setChild : ∀ (es : FsEntries) (n : String) (a : FsTree) (b : FsTree),
    setChild (setChild es n a) n b = setChild es n b := by
  intro es n a
  induction es, n, a using setChild.induct with
  | case1 n a => intro b; simp [setChild]
  | case2 t0 rest n a => intro b; simp [setChild]
  | case3 k t0 rest n a hkn ih => intro b; simp [setChild, hkn, ih b]

theorem isFileAt_emptyDir : ∀ q : List String,
    isFileAt (FsTree.dirNode FsEntries.nil) q = false := by
  intro q
  cases q with
  | nil => rfl
  | cons k ps => simp [isFileAt, getChild]

theorem isDirAt_emptyDir_cons (k : String) (ps : List String) :
    isDirAt (FsTree.dirNode FsEntries.nil) (k :: ps) = false := by
  simp [isDirAt, getChild]

theorem isFileAt_ensureDirState : ∀ (d : List String) (t : FsTree) (p : List String),
    isFileAt (ensureDirState t d) p = isFileAt t p := by
  intro d
  induction d with
  | nil => intro t p; rw [ensureDirState]
  | cons n rest ih =>
    intro t p
    cases t with
    | fileNode => rw [ensureDirState]
    | dirNode es =>
      rw [ensureDirState]
      cases hc : getChild es n with
      | some c =>
        cases p with
        | nil => rfl
        | cons k ps =>
          by_cases hk : k = n
          · subst hk
            rw [isFileAt, isFileAt, getChild_setChild_same, hc]
            dsimp only
            rw [ih]
          · rw [isFileAt, isFileAt, getChild_setChild_ne es n _ k hk]
      | none =>
        cases p with
        | nil => rfl
        | cons k ps =>
          by_cases hk : k = n
          · subst hk
            rw [isFileAt, isFileAt, getChild_setChild_same, hc]
            dsimp only
            rw [ih, isFileAt_emptyDir]
          · rw [isFileAt, isFileAt, getChild_setChild_ne es n _ k hk]

theorem isDirAt_ensureDirState_imp : ∀ (d : List String) (t : FsTree) (q : List String),
    isDirAt (ensureDirState t d) q = true → isDirAt t q = true ∨ q <+: d := by
  intro d
  induction d with
  | nil => intro t q h; rw [ensureDirState] at h; exact Or.inl h
  | cons n rest ih =>
    intro t q h
    cases t with
    | fileNode =>
      rw [ensureDirState] at h
      exact Or.inl h
    | dirNode es =>
      rw [ensureDirState] at h
      cases hc : getChild es n with
      | some c =>
        rw [hc] at h
        cases q with
        | nil => exact Or.inl rfl
        | cons k ps =>
          by_cases hk : k = n
          · subst hk
            simp only [isDirAt, getChild_setChild_same] at h
            rcases ih c ps h with h2 | h2
            · left
              simp only [isDirAt, hc]
              exact h2
            · right
              exact List.cons_prefix_cons.mpr ⟨rfl, h2⟩
          · simp only [isDirAt, getChild_setChild_ne es n _ k hk] at h
            left
            simp only [isDirAt]
            exact h
      | none =>
        rw [hc] at h
        cases q with
        | nil => exact Or.inl rfl
        | cons k ps =>
          by_cases hk : k = n
          · subst hk
            simp only [isDirAt, getChild_setChild_same] at h
            rcases ih _ ps h with h2 | h2
            · cases ps with
              | nil => exact Or.inr (List.cons_prefix_cons.mpr ⟨rfl, List.nil_prefix⟩)
              | cons j qs => rw [isDirAt_emptyDir_cons] at h2; cases h2
            · right
              exact List.cons_prefix_cons.mpr ⟨rfl, h2⟩
          · simp only [isDirAt, getChild_setChild_ne es n _ k hk] at h
            left
            simp only [isDirAt]
            exact h

theorem putFile_single (es : FsEntries) (k : String) :
    putFile (FsTree.dirNode es) [k]
      = match getChild es k with
        | some (FsTree.dirNode _) => none
        | _ => some (FsTree.dirNode (setChild es k FsTree.fileNode)) := by
  rw [putFile]

theorem putFile_cons_cons (es : FsEntries) (k : String) (rest : List String)
    (hre : rest ≠ []) :
    putFile (FsTree.dirNode es) (k :: rest)
      = match getChild es k with
        | some c => (putFile c rest).map (fun c2 => FsTree.dirNode (setChild es k c2))
        | none => none := by
  cases rest with
  | nil => cases hre rfl
  | cons a as => rw [putFile]

theorem isDirAt_fileNode (q : List String) : isDirAt FsTree.fileNode q = false := by
  cases q with
  | nil => rw [isDirAt]
  | cons a as => rw [isDirAt]

theorem isDirAt_emptyDir_ne_nil (q : List String) (hq : q ≠ []) :
    isDirAt (FsTree.dirNode FsEntries.nil) q = false := by
  cases q with
  | nil => cases hq rfl
  | cons a as => exact isDirAt_emptyDir_cons a as

/-- After `mkdirSftp` has created the parent chain `d`, `fastPut` at
`d ++ [n]` succeeds and the resulting tree has a file exactly at `d ++ [n]`
and at every path that already held one, with the directory layout of the
post-`mkdir` tree, provided no proper prefix of the target is a file and the
target itself is not a directory. -/
theorem putFile_after_ensureDirState :
    ∀ (d : List String) (n : String) (t : FsTree),
      (∀ q, q <+: d ++ [n] → q ≠ d ++ [n] → isFileAt t q = false) →
      isDirAt t (d ++ [n]) = false →
      ∃ t2, putFile (ensureDirState t d) (d ++ [n]) = some t2
        ∧ (∀ q, isFileAt t2 q = (decide (q = d ++ [n]) || isFileAt t q))
        ∧ (∀ q, isDirAt t2 q = isDirAt (ensureDirState t d) q) := by
  intro d
  induction d with
  | nil =>
    intro n t h1 h2
    cases t with
    | fileNode =>
      have hfalse := h1 [] List.nil_prefix (by simp)
      simp [isFileAt] at hfalse
    | dirNode es =>
      rw [ensureDirState]
      simp only [List.nil_append] at h2 ⊢
      cases hc : getChild es n with
      | some c =>
        cases c with
        | dirNode cs =>
          exfalso
          simp only [isDirAt, hc] at h2
          exact absurd h2 (by simp [isDirAt])
        | fileNode =>
          refine ⟨FsTree.dirNode (setChild es n FsTree.fileNode), ?_, ?_, ?_⟩
          · rw [putFile_single, hc]
          · intro q
            cases q with
            | nil => simp [isFileAt]
            | cons k ps =>
              by_cases hk : k = n
              · subst hk
                cases ps with
                | nil => simp [isFileAt, getChild_setChild_same, hc]
                | cons j qs => simp [isFileAt, getChild_setChild_same, hc]
              · simp [isFileAt, getChild_setChild_ne es n _ k hk, hk]
          · intro q
            cases q with
            | nil => simp [isDirAt]
            | cons k ps =>
              by_cases hk : k = n
              · subst hk
                simp [isDirAt, getChild_setChild_same, hc]
              · simp [isDirAt, getChild_setChild_ne es n _ k hk]
      | none =>
        refine ⟨FsTree.dirNode (setChild es n FsTree.fileNode), ?_, ?_, ?_⟩
        · rw [putFile_single, hc]
        · intro q
          cases q with
          | nil => simp [isFileAt]
          | cons k ps =>
            by_cases hk : k = n
            · subst hk
              cases ps with
              | nil => simp [isFileAt, getChild_setChild_same, hc]
              | cons j qs => simp [isFileAt, getChild_setChild_same, hc]
            · simp [isFileAt, getChild_setChild_ne es n _ k hk, hk]
        · intro q
          cases q with
          | nil => simp [isDirAt]
          | cons k ps =>
            by_cases hk : k = n
            · subst hk
              simp [isDirAt, getChild_setChild_same, hc, isDirAt_fileNode]
            · simp [isDirAt, getChild_setChild_ne es n _ k hk]
  | cons m d' ih =>
    intro n t h1 h2
    cases t with
    | fileNode =>
      have hfalse := h1 [] List.nil_prefix (by simp)
      simp [isFileAt] at hfalse
    | dirNode es =>
      rw [ensureDirState]
      cases hc : getChild es m with
      | some c =>
        have h1c : ∀ q, q <+: d' ++ [n] → q ≠ d' ++ [n] → isFileAt c q = false := by
          intro q hq hne
          have hmem := h1 (m :: q) (by
              rw [List.cons_append]
              exact List.cons_prefix_cons.mpr ⟨rfl, hq⟩)
            (by simp [hne])
          simpa [isFileAt, hc] using hmem
        have h2c : isDirAt c (d' ++ [n]) = false := by
          rw [List.cons_append] at h2
          simpa [isDirAt, hc] using h2
        obtain ⟨c2, hput, hfiles, hdirs⟩ := ih n c h1c h2c
        refine ⟨FsTree.dirNode (setChild es m c2), ?_, ?_, ?_⟩
        · rw [List.cons_append,
            putFile_cons_cons _ _ _ (by simp), getChild_setChild_same]
          dsimp only
          rw [hput]
          dsimp only [Option.map]
          rw [setChild_setChild]
        · intro q
          cases q with
          | nil => simp [isFileAt]
          | cons k ps =>
            by_cases hk : k = m
            · subst hk
              simp [isFileAt, getChild_setChild_same, hc, hfiles ps]
            · simp [isFileAt, getChild_setChild_ne es m _ k hk, hk]
        · intro q
          cases q with
          | nil => simp [isDirAt]
          | cons k ps =>
            by_cases hk : k = m
            · subst hk
              simp [isDirAt, getChild_setChild_same, hdirs ps]
            · simp [isDirAt, getChild_setChild_ne es m _ k hk]
      | none =>
        have h1c : ∀ q, q <+: d' ++ [n] → q ≠ d' ++ [n] →
            isFileAt (FsTree.dirNode FsEntries.nil) q = false := by
          intro q _ _
          exact isFileAt_emptyDir q
        have h2c : isDirAt (FsTree.dirNode FsEntries.nil) (d' ++ [n]) = false :=
          isDirAt_emptyDir_ne_nil _ (by simp)
        obtain ⟨c2, hput, hfiles, hdirs⟩ := ih n _ h1c h2c
        refine ⟨FsTree.dirNode (setChild es m c2), ?_, ?_, ?_⟩
        · rw [List.cons_append,
            putFile_cons_cons _ _ _ (by simp), getChild_setChild_same]
          dsimp only
          rw [hput]
          dsimp only [Option.map]
          rw [setChild_setChild]
        · intro q
          cases q with
          | nil => simp [isFileAt]
          | cons k ps =>
            by_cases hk : k = m
            · subst hk
              simp [isFileAt, getChild_setChild_same, hc, hfiles ps,
                isFileAt_emptyDir]
            · simp [isFileAt, getChild_setChild_ne es m _ k hk, hk]
        · intro q
          cases q with
          | nil => simp [isDirAt]
          | cons k ps =>
            by_cases hk : k = m
            · subst hk
              simp [isDirAt, getChild_setChild_same, hdirs ps]
            · simp [isDirAt, getChild_setChild_ne es m _ k hk]

/-- The segment interpretation of a file's remote-relative path. -/
def relSegs (f : FileEntry) : List String :=
  (splitOnSlash f.relative).filter (fun s => !s.isEmpty)

/-- Effect of the `uploadFile` loop (deploy.mjs:381-404) on the remote tree
rooted at the configured remote path: for each file, `mkdirSftp` the parent
chain (all errors ignored), then `fastPut`.  The per-file oracle `ok` gives
the outcome the transfer would have barring remote-state obstruction; a
`fastPut` rejected by the state (`putFile` = `none`), like an unsuccessful
transfer, leaves no object at the target. -/
def uploadState (ok : FileEntry → Bool) : List FileEntry → FsTree → FsTree
  | [], t => t
  | f :: rest, t =>
    uploadState ok rest
      (if ok f then
        match putFile (ensureDirState t (relSegs f).dropLast) (relSegs f) with
        | some u => u
        | none => ensureDirState t (relSegs f).dropLast
      else ensureDirState t (relSegs f).dropLast)

theorem uploadState_isFileAt (ok : FileEntry → Bool) (PP : List (List String))
    (hfree : ∀ p ∈ PP, ∀ q ∈ PP, p <+: q → p = q) :
    ∀ (plan : List FileEntry) (t : FsTree),
      (∀ f ∈ plan, relSegs f ∈ PP ∧ relSegs f ≠ []) →
      (∀ q, isFileAt t q = true → q ∈ PP) →
      (∀ q, isDirAt t q = true → q = [] ∨ ∃ r, r ∈ PP ∧ q <+: r ∧ q ≠ r) →
      ∀ q, isFileAt (uploadState ok plan t) q
        = (plan.any (fun g => ok g && decide (relSegs g = q)) || isFileAt t q) := by
  intro plan
  induction plan with
  | nil =>
    intro t _ _ _ q
    rw [uploadState]
    simp
  | cons f rest ih =>
    intro t hplan hfile hdir q
    obtain ⟨hp, hpne⟩ := hplan f (by simp)
    have hplan' : ∀ g ∈ rest, relSegs g ∈ PP ∧ relSegs g ≠ [] :=
      fun g hg => hplan g (by simp [hg])
    have hsplit : (relSegs f).dropLast ++ [(relSegs f).getLast hpne] = relSegs f :=
      List.dropLast_append_getLast hpne
    have hd_pref : (relSegs f).dropLast <+: relSegs f :=
      ⟨[(relSegs f).getLast hpne], hsplit⟩
    have h1 : ∀ q2, q2 <+: relSegs f → q2 ≠ relSegs f → isFileAt t q2 = false := by
      intro q2 hq2 hne
      cases hb : isFileAt t q2 with
      | false => rfl
      | true => exact absurd (hfree _ (hfile _ hb) _ hp hq2) hne
    have h2 : isDirAt t (relSegs f) = false := by
      cases hb : isDirAt t (relSegs f) with
      | false => rfl
      | true =>
        rcases hdir _ hb with hnil | ⟨r, hr, hqr, hner⟩
        · exact absurd hnil hpne
        · exact absurd (hfree _ hp _ hr hqr) hner
    obtain ⟨t2, hput, hfiles, hdirs⟩ :=
      putFile_after_ensureDirState (relSegs f).dropLast ((relSegs f).getLast hpne) t
        (by simpa only [hsplit] using h1) (by simpa only [hsplit] using h2)
    simp only [hsplit] at hput hfiles hdirs
    have hne_of_pref_drop : ∀ q2, q2 <+: (relSegs f).dropLast →
        q2 <+: relSegs f ∧ q2 ≠ relSegs f := by
      intro q2 hq2
      refine ⟨hq2.trans hd_pref, ?_⟩
      intro heq
      have hlen1 := hq2.length_le
      rw [List.length_dropLast] at hlen1
      have hlen2 : 1 ≤ (relSegs f).length := by
        cases hrs : relSegs f with
        | nil => exact absurd hrs hpne
        | cons a as => simp
      rw [heq] at hlen1
      omega
    have hdir1 : ∀ q2, isDirAt (ensureDirState t (relSegs f).dropLast) q2 = true →
        q2 = [] ∨ ∃ r, r ∈ PP ∧ q2 <+: r ∧ q2 ≠ r := by
      intro q2 hb
      rcases isDirAt_ensureDirState_imp _ _ _ hb with hb2 | hb2
      · exact hdir _ hb2
      · obtain ⟨hq2p, hq2ne⟩ := hne_of_pref_drop _ hb2
        exact Or.inr ⟨relSegs f, hp, hq2p, hq2ne⟩
    cases hok : ok f with
    | true =>
      have hfile2 : ∀ q2, isFileAt t2 q2 = true → q2 ∈ PP := by
        intro q2 hb
        rw [hfiles q2] at hb
        by_cases heq : q2 = relSegs f
        · rw [heq]; exact hp
        · simp only [heq, decide_eq_false_iff_not.mpr heq, Bool.false_or] at hb
          exact hfile _ hb
      have hdir2 : ∀ q2, isDirAt t2 q2 = true →
          q2 = [] ∨ ∃ r, r ∈ PP ∧ q2 <+: r ∧ q2 ≠ r := by
        intro q2 hb
        rw [hdirs q2] at hb
        exact hdir1 q2 hb
      rw [uploadState]
      simp only [hok, if_true, hput]
      rw [ih _ hplan' hfile2 hdir2 q, hfiles q]
      simp only [List.any_cons, hok, Bool.true_and]
      have hdq : decide (relSegs f = q) = decide (q = relSegs f) := by
        rcases eq_or_ne q (relSegs f) with he | he
        · simp [he]
        · have he' : relSegs f ≠ q := fun h => he h.symm
          simp [he, he']
      rw [hdq]
      cases decide (q = relSegs f) <;> cases isFileAt t q <;>
        cases rest.any (fun g => ok g && decide (relSegs g = q)) <;> rfl
    | false =>
      have hfile1 : ∀ q2, isFileAt (ensureDirState t (relSegs f).dropLast) q2 = true →
          q2 ∈ PP := by
        intro q2 hb
        rw [isFileAt_ensureDirState] at hb
        exact hfile _ hb
      rw [uploadState]
      simp only [hok, if_false, Bool.false_eq_true]
      rw [ih _ hplan' hfile1 hdir1 q, isFileAt_ensureDirState]
      simp only [List.any_cons, hok, Bool.false_and, Bool.false_or]

/-!
Remote-operation event traces.  Each sftp request is recorded as an `issue`
event when the call is made and a `complete` event when its callback runs;
`closeConn` records `conn.end()`.  Concurrency claims are phrased over the
number of outstanding (issued, not yet completed) operations along the trace.
-/

inductive ROp where
  | statOp : String → ROp
  | mkdirOp : String → ROp
  | putOp : String → String → ROp
deriving DecidableEq, Repr

inductive REv where
  | issue : ROp → REv
  | complete : ROp → REv
  | closeConn : REv
deriving DecidableEq, Repr

/-- `path.posix.join(a, b)` for the shapes the tool produces: a root with no
trailing slash joined to a non-empty relative path with no leading slash. -/
def posixJoin (a b : String) : String := a ++ "/" ++ b

/-- `path.posix.dirname`, up to edge cases ("." / "/" results) that differ
from the real function only in components that `mkdirSftp`'s empty-component
filter discards. -/
def posixDirname (s : String) : String :=
  String.intercalate "/" ((splitOnSlash s).dropLast)

/-- The directory paths `mkdirSftp(sftp, dir)` (deploy.mjs:243-256) issues
`mkdir` for, in order: `current += '/' + parts[i]` over the non-empty
components of `dir`. -/
def mkdirTargets (dir : String) : List String :=
  let parts := (splitOnSlash dir).filter (fun s => !s.isEmpty)
  (List.range parts.length).map
    (fun i => String.join ((parts.take (i + 1)).map (fun p => "/" ++ p)))

/-- `mkdirSftp` awaits each `mkdir` before issuing the next. -/
def mkdirEvents (dir : String) : List REv :=
  (mkdirTargets dir).flatMap
    (fun p => [REv.issue (ROp.mkdirOp p), REv.complete (ROp.mkdirOp p)])

/-- Events of one iteration of `uploadFile` (deploy.mjs:381-404): the awaited
`mkdirSftp` on the remote parent directory, then the `fastPut` whose callback
is where the loop continues. -/
def fileEvents (remoteRoot : String) (f : FileEntry) : List REv :=
  mkdirEvents (posixDirname (posixJoin remoteRoot f.relative))
    ++ [REv.issue (ROp.putOp f.localPath (posixJoin remoteRoot f.relative)),
        REv.complete (ROp.putOp f.localPath (posixJoin remoteRoot f.relative))]

/-- The `\x7b uploaded, failed \x7d` object resolved by `upload`. -/
structure UploadResult where
  uploaded : Nat
  failed : Nat
deriving DecidableEq, Repr

/-- The `uploadFile` recursion (deploy.mjs:381-404) with its two counters:
`uploadFile(i+1)` runs inside the `fastPut` callback of file `i`, a failure
incrementing `failed`, a success `uploaded`; past the last file, `conn.end()`
and resolve `\x7b uploaded, failed \x7d`. -/
def uploadLoop (remoteRoot : String) (ok : FileEntry → Bool) :
    List FileEntry → Nat → Nat → List REv × UploadResult
  | [], u, fl => ([REv.closeConn], ⟨u, fl⟩)
  | f :: rest, u, fl =>
    let tail := uploadLoop remoteRoot ok rest
      (if ok f then u + 1 else u) (if ok f then fl else fl + 1)
    (fileEvents remoteRoot f ++ tail.1, tail.2)

/-- `uploadFile(0)` with both counters at zero (deploy.mjs:321, 404). -/
def uploadRun (remoteRoot : String) (ok : FileEntry → Bool)
    (files : List FileEntry) : List REv × UploadResult :=
  uploadLoop remoteRoot ok files 0 0

/-- The `sftp.stat` issues of `checkExistingFiles` (deploy.mjs:269-281), one
per planned file, in file order. -/
def statIssues (remoteRoot : String) (files : List FileEntry) : List REv :=
  files.map (fun f => REv.issue (ROp.statOp (posixJoin remoteRoot f.relative)))

def statCompletions (remoteRoot : String) (files : List FileEntry) : List REv :=
  files.map (fun f => REv.complete (ROp.statOp (posixJoin remoteRoot f.relative)))

/-- Event trace of `checkExistingFiles` (deploy.mjs:262-284).  The `for` loop
issues `sftp.stat` for every file synchronously; under Node's single-threaded
execution no callback can run before the loop has finished, so every issue
precedes every completion.  Completions are listed in issue order — any
completion order yields the same outstanding count after the issue block.
With an empty file list the promise resolves at once with no traffic. -/
def checkExistingTrace (remoteRoot : String) (files : List FileEntry) : List REv :=
  if files.isEmpty then []
  else statIssues remoteRoot files ++ statCompletions remoteRoot files

def evDelta : REv → Int
  | REv.issue _ => 1
  | REv.complete _ => -1
  | REv.closeConn => 0

/-- Number of operations outstanding after a trace (prefix). -/
def outstandingAfter (tr : List REv) : Int := (tr.map evDelta).sum

/-- At most one remote operation is outstanding at every point of the trace:
the strict sequentiality property of §5 of the spec. -/
def seqFrom : Int → List REv → Bool
  | _, [] => true
  | n, e :: rest => (decide (n + evDelta e ≤ 1)) && seqFrom (n + evDelta e) rest

def sequentialOps (tr : List REv) : Bool := seqFrom 0 tr

theorem seqFrom_zero_pair (a b : ROp) (tr : List REv) :
    seqFrom 0 (REv.issue a :: REv.complete b :: tr) = seqFrom 0 tr := by
  simp [seqFrom, evDelta]

theorem seqFrom_zero_mkdirEvents (dir : String) (tr : List REv) :
    seqFrom 0 (mkdirEvents dir ++ tr) = seqFrom 0 tr := by
  rw [mkdirEvents]
  induction mkdirTargets dir with
  | nil => simp
  | cons p rest ih =>
    rw [List.flatMap_cons]
    simp only [List.append_assoc, List.cons_append, List.nil_append]
    rw [seqFrom_zero_pair]
    exact ih

theorem seqFrom_zero_fileEvents (remoteRoot : String) (f : FileEntry)
    (tr : List REv) :
    seqFrom 0 (fileEvents remoteRoot f ++ tr) = seqFrom 0 tr := by
  rw [fileEvents]
  simp only [List.append_assoc, List.cons_append, List.nil_append]
  rw [seqFrom_zero_mkdirEvents, seqFrom_zero_pair]

theorem uploadLoop_spec (remoteRoot : String) (ok : FileEntry → Bool) :
    ∀ (files : List FileEntry) (u fl : Nat),
      uploadLoop remoteRoot ok files u fl
        = (files.flatMap (fileEvents remoteRoot) ++ [REv.closeConn],
           ⟨u + files.countP ok, fl + files.countP (fun f => !ok f)⟩) := by
  intro files
  induction files with
  | nil => intro u fl; simp [uploadLoop]
  | cons f rest ih =>
    intro u fl
    rw [uploadLoop]
    cases hok : ok f with
    | true =>
      simp only [hok, if_true, ih, List.flatMap_cons, List.append_assoc]
      rw [Prod.mk.injEq]
      refine ⟨rfl, ?_⟩
      rw [UploadResult.mk.injEq]
      refine ⟨?_, ?_⟩ <;> (simp [hok, List.countP_cons]; try omega)
    | false =>
      simp only [hok, ih, List.flatMap_cons, List.append_assoc,
        Bool.false_eq_true, if_false]
      rw [Prod.mk.injEq]
      refine ⟨rfl, ?_⟩
      rw [UploadResult.mk.injEq]
      refine ⟨?_, ?_⟩ <;> (simp [hok, List.countP_cons]; try omega)

theorem uploadRun_sequential (remoteRoot : String) (ok : FileEntry → Bool)
    (files : List FileEntry) :
    sequentialOps (uploadRun remoteRoot ok files).1 = true := by
  rw [uploadRun, uploadLoop_spec]
  dsimp only
  show seqFrom 0 _ = true
  induction files with
  | nil => simp [seqFrom, evDelta]
  | cons f rest ih =>
    rw [List.flatMap_cons, List.append_assoc, seqFrom_zero_fileEvents]
    exact ih

theorem outstandingAfter_statIssues (remoteRoot : String)
    (files : List FileEntry) :
    outstandingAfter (statIssues remoteRoot files) = files.length := by
  rw [outstandingAfter, statIssues]
  induction files with
  | nil => rfl
  | cons f rest ih =>
    simp only [List.map_cons, List.map_map, List.sum_cons, List.length_cons] at ih ⊢
    rw [ih]
    simp [evDelta]
    omega

/-!
Control flow of `main` (deploy.mjs:422-526) and `upload` (deploy.mjs:318-417)
from the point where the file list has been collected.  The environment is an
oracle record: the operator's three confirmation answers, whether the
connection handshake succeeds, which planned files already exist remotely
(`sftp.stat` outcomes), and which transfers succeed.  The result records the
run's observable outcome; `savedCache` is `some m` exactly when
`saveDeployCache(m)` was called.
-/

/-- The three CLI mode flags (deploy.mjs:63-65). -/
structure RunFlags where
  force : Bool
  incremental : Bool
  clean : Bool

/-- Environment oracle for one run. -/
structure RunOracle where
  confirmInitial : Bool
  confirmClean : Bool
  confirmOverwrite : Bool
  connectOk : Bool
  remoteHas : FileEntry → Bool
  transferOk : FileEntry → Bool

/-- Observable outcome of a run. -/
structure RunTrace where
  exitCode : Nat
  connected : Bool
  reachedDiscovery : Bool
  overwritePromptShown : Bool
  transfers : List FileEntry
  uploaded : Nat
  failed : Nat
  completedUpload : Bool
  savedCache : Option (String → Option String)

/-- The file list handed to `upload`: the collected list, replaced by
`result.changed` in incremental mode (deploy.mjs:477-483). -/
def effectiveFiles (flags : RunFlags) (hash : String → String)
    (cache : String → Option String) (files0 : List FileEntry) : List FileEntry :=
  if flags.incremental then (filterChangedFiles hash files0 cache).changed else files0

/-- The `existing` list of `upload` (deploy.mjs:352, 262-284): empty in clean
mode, otherwise the relative paths of planned files whose remote `stat`
succeeds. -/
def discoveredExisting (flags : RunFlags) (orc : RunOracle) (hash : String → String)
    (cache : String → Option String) (files0 : List FileEntry) : List String :=
  if flags.clean then []
  else ((effectiveFiles flags hash cache files0).filter orc.remoteHas).map
    (fun f => f.relative)

/-- `main` from the collected file list onward (deploy.mjs:474-524), with
`upload` (deploy.mjs:318-417) inlined.  In order: the incremental filter and
its early `process.exit(0)` when nothing changed (489-492); the initial
confirmation unless `--unattended` (502-505); the connection, whose failure
rejects and is caught as `exit(1)` (408, 520-523); the clean-mode
confirmation (330-342); existing-file discovery and the overwrite
confirmation (349-377); the sequential upload (381-404); and the cache
update, only in incremental mode with a non-null `newHashes` and zero
failures (515-519). -/
def runMain (flags : RunFlags) (orc : RunOracle) (hash : String → String)
    (cache : String → Option String) (files0 : List FileEntry) : RunTrace :=
  if flags.incremental && (effectiveFiles flags hash cache files0).isEmpty then
    ⟨0, false, false, false, [], 0, 0, false, none⟩
  else if !flags.force && !orc.confirmInitial then
    ⟨0, false, false, false, [], 0, 0, false, none⟩
  else if !orc.connectOk then
    ⟨1, false, false, false, [], 0, 0, false, none⟩
  else if flags.clean && !flags.force && !orc.confirmClean then
    ⟨0, true, false, false, [], 0, 0, false, none⟩
  else if (!(discoveredExisting flags orc hash cache files0).isEmpty && !flags.force)
      && !orc.confirmOverwrite then
    ⟨0, true, true, true, [], 0, 0, false, none⟩
  else
    ⟨0, true, true,
      !(discoveredExisting flags orc hash cache files0).isEmpty && !flags.force,
      effectiveFiles flags hash cache files0,
      (effectiveFiles flags hash cache files0).countP orc.transferOk,
      (effectiveFiles flags hash cache files0).countP (fun f => !orc.transferOk f),
      true,
      if flags.incremental
          && (if flags.incremental then
                some (filterChangedFiles hash files0 cache).newHashes
              else none).isSome
          && ((effectiveFiles flags hash cache files0).countP
                (fun f => !orc.transferOk f) == 0) then
        (if flags.incremental then
          some (filterChangedFiles hash files0 cache).newHashes
        else none)
      else none⟩

theorem countP_add_countP_not {α : Type} (p : α → Bool) (l : List α) :
    l.countP p + l.countP (fun a => !p a) = l.length := by
  induction l with
  | nil => rfl
  | cons a l ih =>
    cases h : p a <;> simp [List.countP_cons, h] <;> omega

/-- Claim C1: the deploy cache file is rewritten at the end of a run if and
only if incremental mode was active and the run completed the upload phase
with `failed = 0`; in particular any run with at least one failed transfer
leaves the persisted cache untouched. -/
theorem claim_C1_cache_saved_iff (flags : RunFlags) (orc : RunOracle)
    (hash : String → String) (cache : String → Option String)
    (files0 : List FileEntry) :
    ((runMain flags orc hash cache files0).savedCache.isSome = true
        ↔ (flags.incremental = true
            ∧ (runMain flags orc hash cache files0).completedUpload = true
            ∧ (runMain flags orc hash cache files0).failed = 0))
    ∧ (1 ≤ (runMain flags orc hash cache files0).failed
        → (runMain flags orc hash cache files0).savedCache = none) := by
  rw [runMain]
  split
  · simp
  · split
    · simp
    · split
      · simp
      · split
        · simp
        · split
          · simp
          · cases hinc : flags.incremental with
            | true =>
              by_cases hf :
                  (effectiveFiles flags hash cache files0).countP
                    (fun f => !orc.transferOk f) = 0 <;>
                simp [hinc, hf]
            | false =>
              simp [hinc]

/-- Claim C10: in incremental mode with an empty changed set, the run exits
with code 0 before any connection is opened, performs no transfers, and does
not rewrite the cache. -/
theorem claim_C10_no_changes_early_exit (flags : RunFlags) (orc : RunOracle)
    (hash : String → String) (cache : String → Option String)
    (files0 : List FileEntry)
    (hinc : flags.incremental = true)
    (hch : (filterChangedFiles hash files0 cache).changed = []) :
    (runMain flags orc hash cache files0).exitCode = 0
    ∧ (runMain flags orc hash cache files0).connected = false
    ∧ (runMain flags orc hash cache files0).transfers = []
    ∧ (runMain flags orc hash cache files0).savedCache = none := by
  have heff : effectiveFiles flags hash cache files0 = [] := by
    rw [effectiveFiles, hinc, if_pos rfl, hch]
  rw [runMain, heff]
  simp [hinc]

/-- Claim C5: the overwrite confirmation is shown exactly when the run
reached the discovery gate with a non-empty existing-file list and unattended
mode off; declining it terminates with exit code 0, no transfers and no cache
update; with `--unattended` the prompt is bypassed and the upload proceeds. -/
theorem claim_C5_overwrite_confirmation (flags : RunFlags) (orc : RunOracle)
    (hash : String → String) (cache : String → Option String)
    (files0 : List FileEntry) :
    ((runMain flags orc hash cache files0).overwritePromptShown = true
        ↔ ((runMain flags orc hash cache files0).reachedDiscovery = true
            ∧ discoveredExisting flags orc hash cache files0 ≠ []
            ∧ flags.force = false))
    ∧ ((runMain flags orc hash cache files0).overwritePromptShown = true
        → orc.confirmOverwrite = false
        → (runMain flags orc hash cache files0).exitCode = 0
          ∧ (runMain flags orc hash cache files0).transfers = []
          ∧ (runMain flags orc hash cache files0).uploaded = 0
          ∧ (runMain flags orc hash cache files0).completedUpload = false
          ∧ (runMain flags orc hash cache files0).savedCache = none)
    ∧ (flags.force = true
        → ((runMain flags orc hash cache files0).overwritePromptShown = false
          ∧ ((runMain flags orc hash cache files0).reachedDiscovery = true
            → (runMain flags orc hash cache files0).completedUpload = true))) := by
  rw [runMain]
  split
  · simp
  · split
    · simp
    · split
      · simp
      · split
        · simp
        · split
          · rename_i hcond
            rw [Bool.and_eq_true, Bool.and_eq_true] at hcond
            obtain ⟨⟨hex, hnf⟩, hno⟩ := hcond
            have hexne : discoveredExisting flags orc hash cache files0 ≠ [] := by
              intro hemp
              rw [hemp] at hex
              simp at hex
            have hfr : flags.force = false := by
              cases hforce : flags.force with
              | true => rw [hforce] at hnf; simp at hnf
              | false => rfl
            refine ⟨?_, ?_, ?_⟩
            · dsimp only
              simp [hexne, hfr]
            · intro _ _
              exact ⟨rfl, rfl, rfl, rfl, rfl⟩
            · intro hforce
              rw [hforce] at hfr
              cases hfr
          · rename_i hcond
            dsimp only
            refine ⟨?_, ?_, ?_⟩
            · constructor
              · intro hshown
                rw [Bool.and_eq_true] at hshown
                obtain ⟨hex, hnf⟩ := hshown
                refine ⟨rfl, ?_, ?_⟩
                · intro hemp
                  rw [hemp] at hex
                  simp at hex
                · cases hforce : flags.force with
                  | true => rw [hforce] at hnf; simp at hnf
                  | false => rfl
              · intro hconj
                obtain ⟨-, hex, hnf⟩ := hconj
                rw [Bool.and_eq_true]
                constructor
                · cases hemp : (discoveredExisting flags orc hash cache files0).isEmpty with
                  | true => exact absurd (List.isEmpty_iff.mp hemp) hex
                  | false => rfl
                · rw [hnf]
                  rfl
            · intro hshown hdecl
              exfalso
              apply hcond
              rw [Bool.and_eq_true]
              refine ⟨hshown, ?_⟩
              rw [hdecl]
              rfl
            · intro hforce
              constructor
              · rw [hforce]
                simp
              · intro _
                rfl

/-- Claim C7: immediately re-running in incremental mode with the cache
persisted by a fully successful prior run over the same files (with unchanged
content, i.e. the same hash oracle) classifies nothing as changed: the second
run exits before connecting and uploads nothing. -/
theorem claim_C7_rerun_uploads_nothing (flags : RunFlags) (orc1 orc2 : RunOracle)
    (hash : String → String) (cache : String → Option String)
    (files0 : List FileEntry) (m : String → Option String)
    (hinc : flags.incremental = true)
    (hsaved : (runMain flags orc1 hash cache files0).savedCache = some m)
    (hnd : (files0.map (fun f => f.relative)).Nodup) :
    (runMain flags orc2 hash m files0).exitCode = 0
    ∧ (runMain flags orc2 hash m files0).connected = false
    ∧ (runMain flags orc2 hash m files0).transfers = []
    ∧ (runMain flags orc2 hash m files0).uploaded = 0 := by
  have hm : m = (filterChangedFiles hash files0 cache).newHashes := by
    rw [runMain] at hsaved
    split at hsaved
    · cases hsaved
    · split at hsaved
      · cases hsaved
      · split at hsaved
        · cases hsaved
        · split at hsaved
          · cases hsaved
          · split at hsaved
            · cases hsaved
            · dsimp only at hsaved
              split at hsaved
              · exact (Option.some_inj.mp hsaved).symm
              · cases hsaved
  have hch : (filterChangedFiles hash files0 m).changed = [] := by
    rw [hm]
    exact filterChangedFiles_idempotent hash cache files0 hnd
  have heff : effectiveFiles flags hash m files0 = [] := by
    rw [effectiveFiles, hinc, if_pos rfl, hch]
  rw [runMain, heff]
  simp [hinc]

/-- Claim C2: the uploader processes the planned list strictly one at a time
in list order (the trace is the in-order concatenation of per-file event
blocks), failures do not abort the queue, the counters tally successes and
failures, the session is closed after the last file, and `uploaded + failed`
equals the number of files processed. -/
theorem claim_C2_sequential_upload_counts (remoteRoot : String)
    (ok : FileEntry → Bool) (files : List FileEntry) :
    ((uploadRun remoteRoot ok files).1
        = files.flatMap (fileEvents remoteRoot) ++ [REv.closeConn])
    ∧ ((uploadRun remoteRoot ok files).2
        = ⟨files.countP ok, files.countP (fun f => !ok f)⟩)
    ∧ (uploadRun remoteRoot ok files).2.uploaded
        + (uploadRun remoteRoot ok files).2.failed = files.length := by
  rw [uploadRun, uploadLoop_spec]
  refine ⟨rfl, ?_, ?_⟩
  · simp
  · simp [countP_add_countP_not]

/-- Claim C3: change detection returns as changed exactly the entries whose
relative path is absent from the cache or cached with a different hash,
counts as unchanged the entries whose hash matches, and computes a fresh
mapping carrying every input entry's freshly computed hash and nothing else;
the given cache itself is a read-only argument of this pure function. -/
theorem claim_C3_change_detection (hash : String → String)
    (cache : String → Option String) (files : List FileEntry) :
    ((filterChangedFiles hash files cache).changed
        = files.filter (isChanged hash cache))
    ∧ (∀ f, isChanged hash cache f = true
        ↔ (cache f.relative = none
            ∨ ∃ v, cache f.relative = some v ∧ v ≠ hash f.localPath))
    ∧ ((filterChangedFiles hash files cache).unchanged
        = files.countP (fun f => decide (cache f.relative = some (hash f.localPath))))
    ∧ ((files.map (fun f => f.relative)).Nodup →
        ∀ f ∈ files, (filterChangedFiles hash files cache).newHashes f.relative
          = some (hash f.localPath))
    ∧ (∀ r, (∀ f ∈ files, f.relative ≠ r) →
        (filterChangedFiles hash files cache).newHashes r = none) := by
  refine ⟨filterChangedFiles_changed hash cache files, ?_, ?_, ?_, ?_⟩
  · intro f
    rw [isChanged, decide_eq_true_eq]
    cases hcv : cache f.relative with
    | none => simp
    | some v => simp
  · have hfn : (fun f => !isChanged hash cache f)
        = (fun f => decide (cache f.relative = some (hash f.localPath))) := by
      funext f
      simp [isChanged, ne_eq, decide_not, Bool.not_not]
    rw [filterChangedFiles_unchanged, hfn]
  · exact fun hnd f hf => filterChangedFiles_newHashes_mem hash cache files f hnd hf
  · exact fun r hr => filterChangedFiles_newHashes_not_mem hash cache files r hr

theorem collectSegs_ne_nil (exclude : List String) :
    ∀ (rel : List String) (es : FsEntries),
      ∀ segs ∈ collectSegs exclude rel es, segs ≠ [] := by
  intro rel es
  induction rel, es using collectSegs.induct exclude with
  | case1 rel => intro s hs; rw [collectSegs_nil_eq] at hs; cases hs
  | case2 rel name child rest segs hex ih =>
    intro s hs
    rw [collectSegs_cons_eq, if_pos hex] at hs
    exact ih s hs
  | case3 rel name rest segs hex ih =>
    intro s hs
    rw [collectSegs_cons_eq, if_neg hex] at hs
    rcases List.mem_cons.mp hs with h | h
    · subst h; simp
    · exact ih s h
  | case4 rel name rest segs hex cs ihIn ihRest =>
    intro s hs
    rw [collectSegs_cons_eq, if_neg hex] at hs
    rcases List.mem_append.mp hs with h | h
    · exact ihIn s h
    · exact ihRest s h

theorem prefixClean_last (exclude : List String) (segs : List String)
    (hne : segs ≠ []) (hclean : prefixClean exclude segs = true) :
    ∀ pat ∈ exclude,
      excludedBy pat (segs.getLastD "") (String.intercalate "/" segs) = false := by
  intro pat hpat
  rw [prefixClean, List.all_eq_true] at hclean
  have hlen : 0 < segs.length := List.length_pos.mpr hne
  have hj := hclean (segs.length - 1) (List.mem_range.mpr (by omega))
  rw [show segs.length - 1 + 1 = segs.length from by omega, List.take_length] at hj
  have hfalse : excludedByAny exclude (segs.getLastD "")
      (String.intercalate "/" segs) = false := by
    cases hb : excludedByAny exclude (segs.getLastD "") (String.intercalate "/" segs) with
    | false => rfl
    | true => rw [hb] at hj; simp at hj
  rw [excludedByAny] at hfalse
  exact Bool.eq_false_iff.mpr (List.any_eq_false.mp hfalse pat hpat)

/-- Claim C4: a missing root collects nothing, and every collected file comes
with a segment path none of whose prefixes — the file itself (final name
component and full relative path) or any ancestor directory — is matched by
any exclusion rule: matched files are skipped and matched directories are
pruned without recursion. -/
theorem claim_C4_exclusions (exclude : List String) (rootPath : String)
    (es : FsEntries) :
    (collectFiles exclude rootPath none = [])
    ∧ (∀ f ∈ collectFiles exclude rootPath (some es),
        ∃ segs, segs ∈ collectSegs exclude [] es
          ∧ f.relative = String.intercalate "/" segs
          ∧ (∀ pat ∈ exclude,
              excludedBy pat (segs.getLastD "") f.relative = false)
          ∧ prefixClean exclude segs = true) := by
  refine ⟨rfl, ?_⟩
  intro f hf
  rw [collectFiles] at hf
  obtain ⟨segs, hsegs, rfl⟩ := List.mem_map.mp hf
  have hclean : prefixClean exclude segs = true :=
    collectSegs_prefixClean exclude [] es rfl segs hsegs
  have hnnil : segs ≠ [] := collectSegs_ne_nil exclude [] es segs hsegs
  exact ⟨segs, hsegs, rfl, prefixClean_last exclude segs hnnil hclean, hclean⟩

/-- Claim C6: the clean-mode wipe treats a missing remote root as already
clean, empties an existing root entirely (depth-first `unlink`/`rmdir`), and
the subsequent upload leaves a regular file exactly at the paths of the
successfully transferred files — no pre-existing file survives. -/
theorem claim_C6_clean_then_upload (es : FsEntries) (ok : FileEntry → Bool)
    (plan : List FileEntry)
    (hnil : ∀ f ∈ plan, relSegs f ≠ [])
    (hfr : ∀ f ∈ plan, ∀ g ∈ plan, relSegs f <+: relSegs g → relSegs f = relSegs g) :
    cleanRemoteDirectory none = some none
    ∧ cleanRemoteDirectory (some (FsTree.dirNode es))
        = some (some (FsTree.dirNode FsEntries.nil))
    ∧ ∀ q, isFileAt (uploadState ok plan (FsTree.dirNode (cleanEntries es))) q
        = plan.any (fun g => ok g && decide (relSegs g = q)) := by
  have hPPfree : ∀ p ∈ plan.map relSegs, ∀ q ∈ plan.map relSegs, p <+: q → p = q := by
    intro p hp q hq hpq
    obtain ⟨f, hf, rfl⟩ := List.mem_map.mp hp
    obtain ⟨g, hg, rfl⟩ := List.mem_map.mp hq
    exact hfr f hf g hg hpq
  have hplan : ∀ f ∈ plan, relSegs f ∈ plan.map relSegs ∧ relSegs f ≠ [] :=
    fun f hf => ⟨List.mem_map_of_mem relSegs hf, hnil f hf⟩
  have hfile0 : ∀ q, isFileAt (FsTree.dirNode FsEntries.nil) q = true →
      q ∈ plan.map relSegs := by
    intro q hq
    rw [isFileAt_emptyDir] at hq
    cases hq
  have hdir0 : ∀ q, isDirAt (FsTree.dirNode FsEntries.nil) q = true →
      q = [] ∨ ∃ r, r ∈ plan.map relSegs ∧ q <+: r ∧ q ≠ r := by
    intro q hq
    cases q with
    | nil => exact Or.inl rfl
    | cons a as => rw [isDirAt_emptyDir_cons] at hq; cases hq
  refine ⟨rfl, ?_, ?_⟩
  · rw [cleanRemoteDirectory, cleanEntries_eq_nil]
  · intro q
    rw [cleanEntries_eq_nil]
    rw [uploadState_isFileAt ok (plan.map relSegs) hPPfree plan
      (FsTree.dirNode FsEntries.nil) hplan hfile0 hdir0 q]
    rw [isFileAt_emptyDir, Bool.or_false]

/-- Claim C8 counterexample: with two planned files, the existing-file
discovery step of the run has both stat operations outstanding at once — the
trace is not sequential, contradicting the claim that no two remote
operations are ever outstanding simultaneously. -/
theorem claim_C8_counterexample :
    sequentialOps (checkExistingTrace "/srv/www"
        [⟨"/b/app.js", "app.js"⟩, ⟨"/b/index.html", "index.html"⟩]) = false
    ∧ outstandingAfter (statIssues "/srv/www"
        [⟨"/b/app.js", "app.js"⟩, ⟨"/b/index.html", "index.html"⟩]) = 2 := by
  constructor
  · rfl
  · rfl

/-- Claim C8 (amended): remote operations of the upload loop are issued and
awaited strictly sequentially, but the existing-file discovery step issues
the stat request for every planned file before any completes — its issue
block is a prefix of the discovery trace, after which as many operations are
outstanding as there are planned files. -/
theorem claim_C8_amended (remoteRoot : String) (ok : FileEntry → Bool)
    (files : List FileEntry) :
    sequentialOps (uploadRun remoteRoot ok files).1 = true
    ∧ statIssues remoteRoot files <+: checkExistingTrace remoteRoot files
    ∧ outstandingAfter (statIssues remoteRoot files) = files.length := by
  refine ⟨uploadRun_sequential remoteRoot ok files, ?_,
    outstandingAfter_statIssues remoteRoot files⟩
  rw [checkExistingTrace]
  split
  · rename_i h
    simp [statIssues, List.isEmpty_iff.mp h]
  · exact List.prefix_append _ _

/-!
Concrete instances used by the witnesses: the two-file scenario of §8 of the
spec (`a.txt` hashing to H1, `b.txt` to H2) and a small local tree for the
`*.map` exclusion scenario.
-/

def demoHash : String → String := fun p => if p = "/b/a.txt" then "H1" else "H2"

def demoFiles : List FileEntry := [⟨"/b/a.txt", "a.txt"⟩, ⟨"/b/b.txt", "b.txt"⟩]

def demoCacheA : String → Option String := fun r => if r = "a.txt" then some "H1" else none

def demoCacheFull : String → Option String :=
  fun r => if r = "a.txt" then some "H1" else if r = "b.txt" then some "H2" else none

def demoTree : FsEntries :=
  FsEntries.cons "app.js" FsTree.fileNode
    (FsEntries.cons "app.js.map" FsTree.fileNode FsEntries.nil)

def demoOracleFailAll : RunOracle :=
  ⟨true, true, true, true, fun _ => false, fun _ => false⟩

def demoOracleOkAll : RunOracle :=
  ⟨true, true, true, true, fun _ => false, fun _ => true⟩

def demoOracleDecline : RunOracle :=
  ⟨true, true, false, true, fun _ => true, fun _ => true⟩

theorem claim_C1_witness :
    1 ≤ (runMain ⟨true, true, false⟩ demoOracleFailAll demoHash
        (fun _ => none) demoFiles).failed
    ∧ (runMain ⟨true, true, false⟩ demoOracleFailAll demoHash
        (fun _ => none) demoFiles).savedCache = none :=
  ⟨by decide,
   (claim_C1_cache_saved_iff ⟨true, true, false⟩ demoOracleFailAll demoHash
      (fun _ => none) demoFiles).2 (by decide)⟩

theorem claim_C3_witness :
    ((demoFiles.map (fun f => f.relative)).Nodup)
    ∧ (filterChangedFiles demoHash demoFiles demoCacheA).newHashes "b.txt"
        = some (demoHash "/b/b.txt") :=
  ⟨by decide,
   (claim_C3_change_detection demoHash demoCacheA demoFiles).2.2.2.1 (by decide)
     ⟨"/b/b.txt", "b.txt"⟩ (by decide)⟩

theorem claim_C5_witness :
    (runMain ⟨false, false, false⟩ demoOracleDecline demoHash
        (fun _ => none) demoFiles).overwritePromptShown = true
    ∧ demoOracleDecline.confirmOverwrite = false
    ∧ ((runMain ⟨false, false, false⟩ demoOracleDecline demoHash
          (fun _ => none) demoFiles).exitCode = 0
        ∧ (runMain ⟨false, false, false⟩ demoOracleDecline demoHash
            (fun _ => none) demoFiles).transfers = []
        ∧ (runMain ⟨false, false, false⟩ demoOracleDecline demoHash
            (fun _ => none) demoFiles).uploaded = 0
        ∧ (runMain ⟨false, false, false⟩ demoOracleDecline demoHash
            (fun _ => none) demoFiles).completedUpload = false
        ∧ (runMain ⟨false, false, false⟩ demoOracleDecline demoHash
            (fun _ => none) demoFiles).savedCache = none) :=
  ⟨by decide, rfl,
   (claim_C5_overwrite_confirmation ⟨false, false, false⟩ demoOracleDecline
      demoHash (fun _ => none) demoFiles).2.1 (by decide) rfl⟩

theorem claim_C7_witness :
    (runMain ⟨true, true, false⟩ demoOracleOkAll demoHash (fun _ => none)
        demoFiles).savedCache
      = some (filterChangedFiles demoHash demoFiles (fun _ => none)).newHashes
    ∧ ((runMain ⟨true, true, false⟩ demoOracleOkAll demoHash
          (filterChangedFiles demoHash demoFiles (fun _ => none)).newHashes
          demoFiles).exitCode = 0
        ∧ (runMain ⟨true, true, false⟩ demoOracleOkAll demoHash
            (filterChangedFiles demoHash demoFiles (fun _ => none)).newHashes
            demoFiles).connected = false
        ∧ (runMain ⟨true, true, false⟩ demoOracleOkAll demoHash
            (filterChangedFiles demoHash demoFiles (fun _ => none)).newHashes
            demoFiles).transfers = []
        ∧ (runMain ⟨true, true, false⟩ demoOracleOkAll demoHash
            (filterChangedFiles demoHash demoFiles (fun _ => none)).newHashes
            demoFiles).uploaded = 0) :=
  ⟨rfl,
   claim_C7_rerun_uploads_nothing ⟨true, true, false⟩ demoOracleOkAll
     demoOracleOkAll demoHash (fun _ => none) demoFiles
     (filterChangedFiles demoHash demoFiles (fun _ => none)).newHashes
     rfl rfl (by decide)⟩

theorem claim_C10_witness :
    (filterChangedFiles demoHash demoFiles demoCacheFull).changed = []
    ∧ ((runMain ⟨false, true, false⟩ demoOracleOkAll demoHash demoCacheFull
          demoFiles).exitCode = 0
        ∧ (runMain ⟨false, true, false⟩ demoOracleOkAll demoHash demoCacheFull
            demoFiles).connected = false
        ∧ (runMain ⟨false, true, false⟩ demoOracleOkAll demoHash demoCacheFull
            demoFiles).transfers = []
        ∧ (runMain ⟨false, true, false⟩ demoOracleOkAll demoHash demoCacheFull
            demoFiles).savedCache = none) :=
  ⟨by decide,
   claim_C10_no_changes_early_exit ⟨false, true, false⟩ demoOracleOkAll demoHash
     demoCacheFull demoFiles rfl (by decide)⟩

theorem claim_C4_witness :
    (⟨"/b/app.js", "app.js"⟩ : FileEntry)
      ∈ collectFiles ["*.map"] "/b" (some demoTree)
    ∧ (∃ segs, segs ∈ collectSegs ["*.map"] [] demoTree
        ∧ ("app.js" : String) = String.intercalate "/" segs
        ∧ (∀ pat ∈ ["*.map"],
            excludedBy pat (segs.getLastD "") ("app.js" : String) = false)
        ∧ prefixClean ["*.map"] segs = true) := by
  have hmem : (⟨"/b/app.js", "app.js"⟩ : FileEntry)
      ∈ collectFiles ["*.map"] "/b" (some demoTree) := by
    rw [collectFiles, demoTree, collectSegs_cons_eq, collectSegs_cons_eq,
      collectSegs_nil_eq]
    simp only [List.mem_map]
    decide
  exact ⟨hmem,
    (claim_C4_exclusions ["*.map"] "/b" demoTree).2 ⟨"/b/app.js", "app.js"⟩ hmem⟩

theorem claim_C6_witness :
    (∀ f ∈ demoFiles, relSegs f ≠ [])
    ∧ (∀ f ∈ demoFiles, ∀ g ∈ demoFiles,
        relSegs f <+: relSegs g → relSegs f = relSegs g)
    ∧ isFileAt (uploadState (fun _ => true) demoFiles
        (FsTree.dirNode (cleanEntries demoTree))) ["b.txt"] = true :=
  ⟨by decide, by decide,
   ((claim_C6_clean_then_upload demoTree (fun _ => true) demoFiles (by decide)
       (by decide)).2.2 ["b.txt"]).trans (by decide)⟩

end SftpDeploy
